import Mathlib

/-!
Shallow embedding of the event-manager page
(`apps/web/app/events/page.tsx`) of the repository.

JavaScript strings are modelled as Lean `String` (a list of characters);
the JS string operations used by the page (`trim`, `toLowerCase`,
`includes`, `localeCompare`) are embedded as executable Lean functions
below.  `localeCompare` on the `yyyy-mm-dd` date strings stored by the
page is modelled by the lexicographic order on `String`, and the
(stable) `Array.prototype.sort` by a stable sort with the same
comparator, which has the same observable output.
-/

namespace EventManager

/-- Structure `EventItem` from the source: `{id: string; name: string; date: string}`. -/
structure EventItem where
  id : String
  name : String
  date : String
deriving Repr, DecidableEq

/-- The data part of the zustand store `EventsState`:
`events: EventItem[]` and `search: string`. -/
structure EventsState where
  events : List EventItem
  search : String
deriving Repr, DecidableEq

/-- JS `String.prototype.trim` on the character list: remove leading and
trailing whitespace. -/
def trimList (l : List Char) : List Char :=
  ((l.dropWhile Char.isWhitespace).reverse.dropWhile Char.isWhitespace).reverse

/-- JS `String.prototype.trim`. -/
def trimStr (s : String) : String :=
  ⟨trimList s.data⟩

/-- JS `String.prototype.toLowerCase`. -/
def lowerStr (s : String) : String :=
  ⟨s.data.map Char.toLower⟩

/-- Does `hay` start with `needle`?  (Helper for `includes`.) -/
def startsWithList : List Char → List Char → Bool
  | _, [] => true
  | [], _ :: _ => false
  | a :: as, b :: bs => a = b && startsWithList as bs

/-- JS `hay.includes(needle)`: `needle` occurs as a contiguous substring. -/
def containsList : List Char → List Char → Bool
  | hay, needle =>
    startsWithList hay needle ||
      match hay with
      | [] => false
      | _ :: t => containsList t needle

/-- JS `hay.includes(needle)` on strings. -/
def includesStr (hay needle : String) : Bool :=
  containsList hay.data needle.data

/-! ## The store operations (page.tsx lines 33–55) -/

/-- Source operation `setSearch: (q) => set({ search: q })`. -/
def setSearch (st : EventsState) (q : String) : EventsState :=
  { st with search := q }

/-- Source operation `addEvent: ({name, date}) => set(state => ({events: [...state.events,
{id: generateId(), name: name.trim(), date}]}))`.  The id produced by
`generateId()` is passed in explicitly as `freshId`. -/
def addEvent (st : EventsState) (freshId : String) (name date : String) : EventsState :=
  { st with events := st.events ++ [{ id := freshId, name := trimStr name, date := date }] }

/-- Source operation `deleteEvent: (id) => set(state => ({events: state.events.filter(e =>
e.id !== id)}))`. -/
def deleteEvent (st : EventsState) (id : String) : EventsState :=
  { st with events := st.events.filter (fun e => e.id ≠ id) }

/-! ## The derived view (page.tsx lines 79–84) -/

/-- Lexicographic `≤` on character lists (the order `localeCompare`
induces on the `yyyy-mm-dd` date strings of the page). -/
def charListLe : List Char → List Char → Bool
  | [], _ => true
  | _ :: _, [] => false
  | a :: as, b :: bs => if a = b then charListLe as bs else decide (a < b)

theorem charListLe_total : ∀ x y : List Char, charListLe x y = true ∨ charListLe y x = true
  | [], _ => Or.inl rfl
  | _ :: _, [] => Or.inr rfl
  | a :: as, b :: bs => by
    by_cases hab : a = b
    · subst hab
      simpa [charListLe] using charListLe_total as bs
    · rcases lt_or_gt_of_ne hab with h | h
      · exact Or.inl (by simp [charListLe, hab, h])
      · exact Or.inr (by simp [charListLe, Ne.symm hab, h])

theorem charListLe_trans :
    ∀ x y z : List Char, charListLe x y = true → charListLe y z = true →
      charListLe x z = true
  | [], _, _, _, _ => rfl
  | _ :: _, [], _, hxy, _ => by simp [charListLe] at hxy
  | _ :: _, _ :: _, [], _, hyz => by simp [charListLe] at hyz
  | a :: as, b :: bs, c :: cs, hxy, hyz => by
    by_cases hab : a = b <;> by_cases hbc : b = c
    · subst hab; subst hbc
      simp only [charListLe, if_pos rfl] at hxy hyz ⊢
      exact charListLe_trans as bs cs hxy hyz
    · subst hab
      simp [charListLe, hbc] at hyz ⊢
      exact hyz
    · subst hbc
      simp [charListLe, hab] at hxy ⊢
      exact hxy
    · simp only [charListLe, if_neg hab, decide_eq_true_eq] at hxy
      simp only [charListLe, if_neg hbc, decide_eq_true_eq] at hyz
      have hac : a < c := lt_trans hxy hyz
      simp [charListLe, ne_of_lt hac, hac]

/-- The comparator `(a, b) => a.date.localeCompare(b.date)` sorts
ascending by date string. -/
def dateLe (a b : EventItem) : Prop :=
  charListLe a.date.data b.date.data = true

instance : DecidableRel dateLe := fun a b =>
  inferInstanceAs (Decidable (charListLe a.date.data b.date.data = true))

instance : IsTotal EventItem dateLe :=
  ⟨fun a b => charListLe_total a.date.data b.date.data⟩

instance : IsTrans EventItem dateLe :=
  ⟨fun _ _ _ h h' => charListLe_trans _ _ _ h h'⟩

/-- Source expression `[...events].sort((a, b) => a.date.localeCompare(b.date))`:
a stable sort of the events by ascending date string. -/
def sortByDate (evs : List EventItem) : List EventItem :=
  evs.insertionSort dateLe

/-- Source value `filteredEvents` (the `useMemo` body):
`const q = search.trim().toLowerCase();`
`const base = [...events].sort((a, b) => a.date.localeCompare(b.date));`
`if (!q) return base;`
`return base.filter(e => e.name.toLowerCase().includes(q));` -/
def filteredEvents (events : List EventItem) (search : String) : List EventItem :=
  let q := lowerStr (trimStr search)
  let base := sortByDate events
  if q = "" then base
  else base.filter (fun e => includesStr (lowerStr e.name) q)

/-! ## Form validation (page.tsx lines 146–150, 165–168, 230–235) -/

/-- The regular expression test `/^\d{4}-\d{2}-\d{2}$/.test(v)`. -/
def matchesISOPattern (v : String) : Bool :=
  match v.data with
  | [y1, y2, y3, y4, '-', m1, m2, '-', d1, d2] =>
    y1.isDigit && y2.isDigit && y3.isDigit && y4.isDigit &&
      m1.isDigit && m2.isDigit && d1.isDigit && d2.isDigit
  | _ => false

/-- Numeric value of a decimal digit character. -/
def digitVal (c : Char) : Nat :=
  c.toNat - 48

/-- The `(year, month, day)` fields of a string matching the
`yyyy-mm-dd` pattern (unspecified otherwise). -/
def parseISO (v : String) : Nat × Nat × Nat :=
  match v.data with
  | [y1, y2, y3, y4, _, m1, m2, _, d1, d2] =>
    (1000 * digitVal y1 + 100 * digitVal y2 + 10 * digitVal y3 + digitVal y4,
      10 * digitVal m1 + digitVal m2,
      10 * digitVal d1 + digitVal d2)
  | _ => (0, 0, 0)

/-- Gregorian leap-year rule used by ECMAScript `Date`. -/
def isLeapYear (y : Nat) : Bool :=
  (y % 4 == 0 && y % 100 != 0) || y % 400 == 0

/-- Number of days in month `m` of year `y`. -/
def daysInMonth (y m : Nat) : Nat :=
  if m = 2 then (if isLeapYear y then 29 else 28)
  else if m = 4 ∨ m = 6 ∨ m = 9 ∨ m = 11 then 30
  else 31

/-- Whether `(y, m, d)` is a real calendar date.  This is the condition
under which ECMAScript `new Date("yyyy-mm-dd")` (the Date Time String
Format parser) yields a non-`NaN` time value for a pattern-matching
string: month in 1..12 and day in 1..daysInMonth. -/
def isRealCalendarDate (y m d : Nat) : Bool :=
  1 ≤ m && m ≤ 12 && 1 ≤ d && d ≤ daysInMonth y m

/-- Function `isValidISODate` from the source: the pattern test followed by the
`new Date(v)` / `Number.isNaN(d.getTime())` check. -/
def isValidISODate (v : String) : Bool :=
  if matchesISOPattern v then
    isRealCalendarDate (parseISO v).1 (parseISO v).2.1 (parseISO v).2.2
  else false

/-- The react-hook-form rules on the `name` field: `required`,
`validate: v.trim().length > 0`, `maxLength: 200`. -/
def nameFieldValid (v : String) : Bool :=
  v ≠ "" && trimStr v ≠ "" && v.length ≤ 200

/-- The react-hook-form rules on the `date` field: `required`,
`validate: isValidISODate(v)`. -/
def dateFieldValid (v : String) : Bool :=
  v ≠ "" && isValidISODate v

/-- The submit flow: `handleSubmit` invokes `onSubmit` only when every
field rule passes; `onSubmit` re-checks `!trimmed || !data.date` and
then calls `addEvent({name: trimmed, date: data.date})`.  On any
violation the store is untouched. -/
def submitForm (st : EventsState) (freshId name date : String) : EventsState :=
  if nameFieldValid name && dateFieldValid date then
    let trimmed := trimStr name
    if trimmed = "" || date = "" then st
    else addEvent st freshId trimmed date
  else st

/-! ## Persistence (page.tsx lines 33–55): the zustand `persist`
middleware writes `JSON.stringify({state: partialize(state), version: 1})`
under the storage key and reads it back on startup. -/

/-- JSON values, the codomain of the serialization. -/
inductive Json where
  | str (s : String)
  | num (n : Nat)
  | arr (xs : List Json)
  | obj (fields : List (String × Json))
deriving Repr

/-- Source option `partialize: (state) => ({ events: state.events })`. -/
def partialize (st : EventsState) : List EventItem :=
  st.events

/-- JSON encoding of one event record. -/
def encodeEvent (e : EventItem) : Json :=
  .obj [("id", .str e.id), ("name", .str e.name), ("date", .str e.date)]

/-- The persisted storage envelope `{state: {events: [...]}, version: 1}`
derived from a store state. -/
def persistEnvelope (st : EventsState) : Json :=
  .obj [("state", .obj [("events", .arr ((partialize st).map encodeEvent))]),
    ("version", .num 1)]

/-- Field lookup in a JSON object. -/
def Json.getField (j : Json) (k : String) : Option Json :=
  match j with
  | .obj fs => fs.lookup k
  | _ => none

/-- Read a JSON string. -/
def Json.asStr (j : Json) : Option String :=
  match j with
  | .str s => some s
  | _ => none

/-- Decode one event record; `none` on malformed data. -/
def decodeEvent (j : Json) : Option EventItem := do
  let id ← (← j.getField "id").asStr
  let name ← (← j.getField "name").asStr
  let date ← (← j.getField "date").asStr
  pure { id := id, name := name, date := date }

/-- Decode a JSON array of event records; `none` if any is malformed. -/
def decodeEvents : List Json → Option (List EventItem)
  | [] => some []
  | j :: t => do
    let e ← decodeEvent j
    let rest ← decodeEvents t
    pure (e :: rest)

/-- Decode the storage envelope back to the event list, checking
`version: 1`; `none` on malformed data or version mismatch. -/
def decodeEnvelope (j : Json) : Option (List EventItem) := do
  let version ← j.getField "version"
  match version with
  | .num 1 =>
    let state ← j.getField "state"
    let evs ← state.getField "events"
    match evs with
    | .arr xs => decodeEvents xs
    | _ => none
  | _ => none

/-- Rehydration at startup: a decoded collection, or the empty
collection when nothing (or something malformed) is stored. -/
def rehydrate (stored : Option Json) : EventsState :=
  match stored with
  | none => { events := [], search := "" }
  | some j =>
    match decodeEnvelope j with
    | none => { events := [], search := "" }
    | some evs => { events := evs, search := "" }

/-! ## Store lifecycle: traces of operations from the initial state -/

/-- The operations a UI session can perform on the store. -/
inductive Op where
  | add (name date : String)
  | delete (id : String)
  | search (q : String)
deriving Repr, DecidableEq

/-- The initial store state: `events: [], search: ""`. -/
def initialState : EventsState :=
  { events := [], search := "" }

/-- One step of the store.  `generateId()` is modelled by an id supply
`gen` indexed by how many ids have been generated so far (the second
component of the state). -/
def runOp (gen : Nat → String) (p : EventsState × Nat) (op : Op) : EventsState × Nat :=
  match op with
  | .add name date => (addEvent p.1 (gen p.2) name date, p.2 + 1)
  | .delete id => (deleteEvent p.1 id, p.2)
  | .search q => (setSearch p.1 q, p.2)

/-- Run a whole session from the initial state. -/
def runOps (gen : Nat → String) (ops : List Op) : EventsState × Nat :=
  ops.foldl (runOp gen) (initialState, 0)

/-! ## Display formatting (page.tsx lines 237–245) -/

/-- Source function `formatDate`: `try { const d = new Date(isoDate); if (isNaN) return
isoDate; return d.toLocaleDateString(...); } catch { return isoDate; }`.
The host-defined `Date` parse is `parse` (`none` = invalid date) and the
locale formatter is `fmt` (`none` = the formatter threw, caught by the
`catch`). -/
def formatDate (parse : String → Option Nat) (fmt : Nat → Option String)
    (isoDate : String) : String :=
  match parse isoDate with
  | none => isoDate
  | some d =>
    match fmt d with
    | none => isoDate
    | some s => s

/-! ## Small concrete states used to exercise the theorems -/

/-- A sample stored event. -/
def sampleEvent : EventItem :=
  { id := "a", name := "A", date := "2024-01-01" }

/-- A sample store state holding one event. -/
def sampleState : EventsState :=
  { events := [sampleEvent], search := "" }

/-! ## Helper lemmas -/

theorem charListLe_refl : ∀ x : List Char, charListLe x x = true
  | [] => rfl
  | _ :: as => by simpa [charListLe] using charListLe_refl as

/-- At most one list element maps to a given value under `f` when the
image list has no duplicates. -/
theorem length_le_length_filter_ne_add_one {α β : Type} [DecidableEq β]
    (f : α → β) (c : β) :
    ∀ l : List α, (l.map f).Nodup →
      l.length ≤ (l.filter (fun e => f e ≠ c)).length + 1
  | [], _ => by simp
  | a :: l, h => by
    rw [List.map_cons, List.nodup_cons] at h
    by_cases hac : f a = c
    · have hall : l.filter (fun e => f e ≠ c) = l :=
        List.filter_eq_self.mpr (by
          intro e he
          have hne : f e ≠ c := by
            intro hec
            exact h.1 (by rw [hac, ← hec]; exact List.mem_map_of_mem f he)
          simpa using hne)
      have hcons : (a :: l).filter (fun e => f e ≠ c) = l.filter (fun e => f e ≠ c) := by
        simp [List.filter_cons, hac]
      rw [hcons, hall]
      simp
    · have ih := length_le_length_filter_ne_add_one f c l h.2
      have hcons : (a :: l).filter (fun e => f e ≠ c) = a :: l.filter (fun e => f e ≠ c) := by
        simp [List.filter_cons, hac]
      rw [hcons]
      simp only [List.length_cons]
      omega

theorem lowerStr_eq_empty_iff (s : String) : lowerStr s = "" ↔ s = "" := by
  rw [String.ext_iff, String.ext_iff]
  show s.data.map Char.toLower = [] ↔ s.data = ([] : List Char)
  exact List.map_eq_nil_iff

theorem filter_swap (l : List EventItem) (p s : EventItem → Bool) :
    (l.filter s).filter p = (l.filter p).filter s := by
  rw [List.filter_filter, List.filter_filter]
  exact List.filter_congr fun a _ => Bool.and_comm (p a) (s a)

theorem sortByDate_sorted (evs : List EventItem) :
    (sortByDate evs).Pairwise dateLe :=
  List.sorted_insertionSort dateLe evs

theorem sortByDate_perm (evs : List EventItem) : List.Perm (sortByDate evs) evs :=
  List.perm_insertionSort dateLe evs

/-- Stability of the sort: the events carrying any fixed date appear in
the sorted list exactly in their stored order. -/
theorem sortByDate_filter_date (evs : List EventItem) (d : String) :
    (sortByDate evs).filter (fun e => e.date = d) = evs.filter (fun e => e.date = d) := by
  have hpw : (evs.filter (fun e => e.date = d)).Pairwise dateLe := by
    apply List.pairwise_of_forall_mem_list
    intro a ha b hb
    have ha' : a.date = d := by simpa using (List.mem_filter.mp ha).2
    have hb' : b.date = d := by simpa using (List.mem_filter.mp hb).2
    show charListLe a.date.data b.date.data = true
    rw [ha', hb']
    exact charListLe_refl d.data
  have hsub : List.Sublist (evs.filter (fun e => e.date = d)) (sortByDate evs) :=
    List.sublist_insertionSort hpw (List.filter_sublist evs)
  have hsub2 : List.Sublist (evs.filter (fun e => e.date = d))
      ((sortByDate evs).filter (fun e => e.date = d)) := by
    have h2 := hsub.filter (fun e => decide (e.date = d))
    have h3 : (evs.filter (fun e => e.date = d)).filter (fun e => e.date = d)
        = evs.filter (fun e => e.date = d) :=
      List.filter_eq_self.mpr fun e he => (List.mem_filter.mp he).2
    rwa [h3] at h2
  have hlen : ((sortByDate evs).filter (fun e => e.date = d)).length
      = (evs.filter (fun e => e.date = d)).length :=
    ((sortByDate_perm evs).filter _).length_eq
  exact (hsub2.eq_of_length hlen.symm).symm

theorem dropWhile_idem (p : Char → Bool) : ∀ l : List Char,
    (l.dropWhile p).dropWhile p = l.dropWhile p
  | [] => rfl
  | x :: xs => by
    by_cases hx : p x = true
    · simp only [List.dropWhile_cons, hx, if_true]
      exact dropWhile_idem p xs
    · simp [List.dropWhile_cons, hx]

theorem head_false_of_dropWhile_self (p : Char → Bool) (c : Char) (m : List Char)
    (h : (c :: m).dropWhile p = c :: m) : p c = false := by
  by_contra hc
  rw [Bool.not_eq_false] at hc
  rw [List.dropWhile_cons, if_pos hc] at h
  have hlen := (List.dropWhile_sublist p (l := m)).length_le
  rw [h] at hlen
  simp only [List.length_cons] at hlen
  omega

theorem dropWhile_reverse_dropWhile_self (p : Char → Bool) (x : List Char)
    (hx : x.dropWhile p = x) :
    ((x.reverse.dropWhile p).reverse).dropWhile p = (x.reverse.dropWhile p).reverse := by
  obtain ⟨t, ht⟩ := List.dropWhile_suffix p (l := x.reverse)
  have hx2 : (x.reverse.dropWhile p).reverse ++ t.reverse = x := by
    have h := congrArg List.reverse ht
    simpa using h
  cases hpre : (x.reverse.dropWhile p).reverse with
  | nil => simp
  | cons c cs =>
    have hxcons : x = c :: (cs ++ t.reverse) := by
      rw [← hx2, hpre]
      simp
    have hc : p c = false := by
      apply head_false_of_dropWhile_self p c (cs ++ t.reverse)
      rw [← hxcons]
      exact hx
    simp [List.dropWhile_cons, hc]

theorem trimList_idem (l : List Char) : trimList (trimList l) = trimList l := by
  have h1 : (l.dropWhile Char.isWhitespace).dropWhile Char.isWhitespace
      = l.dropWhile Char.isWhitespace := dropWhile_idem Char.isWhitespace l
  have h2 := dropWhile_reverse_dropWhile_self Char.isWhitespace _ h1
  show (((trimList l).dropWhile Char.isWhitespace).reverse.dropWhile
      Char.isWhitespace).reverse = trimList l
  rw [show (trimList l).dropWhile Char.isWhitespace = trimList l from h2]
  rw [show (trimList l).reverse
      = (l.dropWhile Char.isWhitespace).reverse.dropWhile Char.isWhitespace from
    List.reverse_reverse _]
  rw [dropWhile_idem]
  rfl

theorem dropWhile_eq_nil_of_all (p : Char → Bool) :
    ∀ l : List Char, (∀ c ∈ l, p c = true) → l.dropWhile p = []
  | [], _ => rfl
  | c :: m, h => by
    rw [List.dropWhile_cons, if_pos (h c (List.mem_cons_self c m))]
    exact dropWhile_eq_nil_of_all p m fun a ha => h a (List.mem_cons_of_mem c ha)

theorem trimStr_eq_empty_of_whitespace (q : String)
    (h : ∀ c ∈ q.data, c.isWhitespace = true) : trimStr q = "" := by
  apply String.ext
  show trimList q.data = []
  unfold trimList
  rw [dropWhile_eq_nil_of_all _ _ h]
  rfl

/-! ## Theorems for the claims -/

/-- C2: for every event list and every search text, the derived view is
sorted by date ascending (comparing the date strings), and the sort is
stable: the events carrying any fixed date occur in the view in their
stored relative order.  Adding {"B","2025-01-01"} then
{"A","2024-01-01"} yields display order [A, B]. -/
theorem filteredEvents_sorted_stable (evs : List EventItem) (q : String) :
    (filteredEvents evs q).Pairwise dateLe ∧
      (∀ d : String, List.Sublist ((filteredEvents evs q).filter (fun e => e.date = d))
        (evs.filter (fun e => e.date = d))) ∧
      (filteredEvents
          [{ id := "1", name := "B", date := "2025-01-01" },
            { id := "2", name := "A", date := "2024-01-01" }] "").map EventItem.name
        = ["A", "B"] := by
  refine ⟨?_, ?_, by decide⟩
  · show ((if lowerStr (trimStr q) = "" then sortByDate evs
      else (sortByDate evs).filter
        (fun e => includesStr (lowerStr e.name) (lowerStr (trimStr q))))).Pairwise dateLe
    by_cases hq : lowerStr (trimStr q) = ""
    · simpa [hq] using sortByDate_sorted evs
    · rw [if_neg hq]
      exact (sortByDate_sorted evs).filter _
  · intro d
    show List.Sublist (((if lowerStr (trimStr q) = "" then sortByDate evs
      else (sortByDate evs).filter
        (fun e => includesStr (lowerStr e.name) (lowerStr (trimStr q))))).filter
          (fun e => e.date = d))
      (evs.filter (fun e => e.date = d))
    by_cases hq : lowerStr (trimStr q) = ""
    · rw [if_pos hq, sortByDate_filter_date]
    · rw [if_neg hq, filter_swap, sortByDate_filter_date]
      exact List.filter_sublist _

/-- C1: for every store state and every (name, date) pair with name
non-empty after trimming and date non-empty, `addEvent` appends exactly
one event at the end of the collection — the size grows by exactly 1 and
the previous events keep their positions — and the name of the new entry is
the trimmed input name and its date is the input date string. -/
theorem addEvent_appends_trimmed (st : EventsState) (freshId name date : String)
    (_hname : trimStr name ≠ "") (_hdate : date ≠ "") :
    (addEvent st freshId name date).events
        = st.events ++ [{ id := freshId, name := trimStr name, date := date }] ∧
      (addEvent st freshId name date).events.length = st.events.length + 1 ∧
      (addEvent st freshId name date).events.take st.events.length = st.events := by
  refine ⟨rfl, by simp [addEvent], ?_⟩
  show (st.events ++ [_]).take st.events.length = st.events
  exact List.take_left st.events _

theorem addEvent_appends_trimmed_witness :
    trimStr "  Team Meeting  " ≠ "" ∧ ("2024-01-01" : String) ≠ "" ∧
      (addEvent initialState "id0" "  Team Meeting  " "2024-01-01").events
        = [{ id := "id0", name := "Team Meeting", date := "2024-01-01" }] := by
  refine ⟨by decide, by decide, ?_⟩
  have h := addEvent_appends_trimmed initialState "id0" "  Team Meeting  " "2024-01-01"
    (by decide) (by decide)
  rw [h.1]
  decide

/-- C4: `deleteEvent id` removes at most one entry when ids are unique
in the collection; with an absent id it leaves the state unchanged; and
deleting the same id twice equals deleting it once. -/
theorem deleteEvent_spec (st : EventsState) (id : String) :
    ((st.events.map EventItem.id).Nodup →
        st.events.length ≤ (deleteEvent st id).events.length + 1) ∧
      (id ∉ st.events.map EventItem.id → deleteEvent st id = st) ∧
      deleteEvent (deleteEvent st id) id = deleteEvent st id := by
  refine ⟨?_, ?_, ?_⟩
  · intro h
    exact length_le_length_filter_ne_add_one EventItem.id id st.events h
  · intro h
    have hfe : st.events.filter (fun e => e.id ≠ id) = st.events :=
      List.filter_eq_self.mpr (by
        intro e he
        have hne : e.id ≠ id := by
          intro hec
          exact h (by rw [← hec]; exact List.mem_map_of_mem EventItem.id he)
        simpa using hne)
    show { st with events := st.events.filter (fun e => e.id ≠ id) } = st
    rw [hfe]
  · have hff : ((st.events.filter (fun e => e.id ≠ id)).filter (fun e => e.id ≠ id))
        = st.events.filter (fun e => e.id ≠ id) :=
      List.filter_eq_self.mpr fun e he => (List.mem_filter.mp he).2
    show { st with events := ((st.events.filter (fun e => e.id ≠ id)).filter
      (fun e => e.id ≠ id)) } = { st with events := st.events.filter (fun e => e.id ≠ id) }
    rw [hff]

theorem deleteEvent_spec_witness :
    ((sampleState.events.map EventItem.id).Nodup →
        sampleState.events.length ≤ (deleteEvent sampleState "b").events.length + 1) ∧
      deleteEvent sampleState "b" = sampleState :=
  ⟨(deleteEvent_spec sampleState "b").1,
    (deleteEvent_spec sampleState "b").2.1 (by decide)⟩

/-- C8: the persisted envelope is `{state: {events: [...]}, version: 1}`,
derived from the events alone; `setSearch` never changes it, and two
states with the same events persist identically. -/
theorem persistEnvelope_only_events :
    (∀ st : EventsState, persistEnvelope st
        = Json.obj [("state", Json.obj [("events", Json.arr (st.events.map encodeEvent))]),
            ("version", Json.num 1)]) ∧
      (∀ (st : EventsState) (q : String),
        persistEnvelope (setSearch st q) = persistEnvelope st) ∧
      ∀ s1 s2 : EventsState, s1.events = s2.events → persistEnvelope s1 = persistEnvelope s2 := by
  refine ⟨fun st => rfl, fun st q => rfl, fun s1 s2 h => ?_⟩
  simp [persistEnvelope, partialize, h]

theorem persistEnvelope_only_events_witness :
    persistEnvelope { events := [], search := "searching" }
      = persistEnvelope { events := [], search := "" } :=
  persistEnvelope_only_events.2.2 { events := [], search := "searching" }
    { events := [], search := "" } rfl

/-- C9: the display formatter never fails: when the stored string does
not parse to a valid date, or the locale formatter throws, `formatDate`
returns the raw stored string unchanged; otherwise it returns the
locale-formatted date. -/
theorem formatDate_fallback (parse : String → Option Nat) (fmt : Nat → Option String)
    (isoDate : String) :
    (parse isoDate = none → formatDate parse fmt isoDate = isoDate) ∧
      (∀ d, parse isoDate = some d → fmt d = none →
        formatDate parse fmt isoDate = isoDate) ∧
      (∀ d s, parse isoDate = some d → fmt d = some s →
        formatDate parse fmt isoDate = s) := by
  refine ⟨fun h => by simp [formatDate, h], fun d hd hf => by simp [formatDate, hd, hf],
    fun d s hd hf => by simp [formatDate, hd, hf]⟩

theorem decodeEvent_encodeEvent (e : EventItem) : decodeEvent (encodeEvent e) = some e := rfl

theorem decodeEvents_encode : ∀ evs : List EventItem,
    decodeEvents (evs.map encodeEvent) = some evs
  | [] => rfl
  | e :: t => by
    rw [List.map_cons]
    show (do
      let a ← decodeEvent (encodeEvent e)
      let rest ← decodeEvents (t.map encodeEvent)
      pure (a :: rest)) = some (e :: t)
    rw [decodeEvent_encodeEvent, decodeEvents_encode t]
    rfl

/-- C7: persisting a collection to the storage envelope and reloading it
yields an identical event list — every id, name and date unchanged, in
the same order. -/
theorem persist_reload_roundtrip (st : EventsState) :
    decodeEnvelope (persistEnvelope st) = some st.events ∧
      rehydrate (some (persistEnvelope st)) = { events := st.events, search := "" } := by
  have h : decodeEnvelope (persistEnvelope st) = some st.events := by
    simp [decodeEnvelope, persistEnvelope, partialize, Json.getField, List.lookup,
      decodeEvents_encode]
  exact ⟨h, by simp [rehydrate, h]⟩

theorem formatDate_fallback_witness :
    formatDate (fun _ => none) (fun _ => some "Jan 01, 2024") "not-a-date" = "not-a-date" :=
  (formatDate_fallback (fun _ => none) (fun _ => some "Jan 01, 2024") "not-a-date").1 rfl

/-- C3: with a non-empty (after trimming) search text the derived view
is exactly the sorted list filtered to the events whose lowercased name
contains the lowercased trimmed search text as a substring; with an
empty search it is the full sorted list.  Searching "team" over
"Team Meeting" and "Launch Party" yields exactly ["Team Meeting"]. -/
theorem filteredEvents_search_characterization (evs : List EventItem) (q : String) :
    (trimStr q = "" → filteredEvents evs q = sortByDate evs) ∧
      (trimStr q ≠ "" →
        filteredEvents evs q = (sortByDate evs).filter
          (fun e => includesStr (lowerStr e.name) (lowerStr (trimStr q)))) ∧
      (filteredEvents
          [{ id := "1", name := "Team Meeting", date := "2025-01-01" },
            { id := "2", name := "Launch Party", date := "2024-01-01" }] "team").map
          EventItem.name
        = ["Team Meeting"] := by
  refine ⟨?_, ?_, by decide⟩
  · intro h
    show (if lowerStr (trimStr q) = "" then sortByDate evs
      else (sortByDate evs).filter
        (fun e => includesStr (lowerStr e.name) (lowerStr (trimStr q)))) = sortByDate evs
    rw [if_pos ((lowerStr_eq_empty_iff (trimStr q)).mpr h)]
  · intro h
    show (if lowerStr (trimStr q) = "" then sortByDate evs
      else (sortByDate evs).filter
        (fun e => includesStr (lowerStr e.name) (lowerStr (trimStr q))))
      = (sortByDate evs).filter (fun e => includesStr (lowerStr e.name) (lowerStr (trimStr q)))
    rw [if_neg (fun hc => h ((lowerStr_eq_empty_iff (trimStr q)).mp hc))]

theorem filteredEvents_search_characterization_witness :
    trimStr "team" ≠ "" ∧
      filteredEvents
          [{ id := "1", name := "Team Meeting", date := "2025-01-01" },
            { id := "2", name := "Launch Party", date := "2024-01-01" }] "team"
        = (sortByDate
            [{ id := "1", name := "Team Meeting", date := "2025-01-01" },
              { id := "2", name := "Launch Party", date := "2024-01-01" }]).filter
            (fun e => includesStr (lowerStr e.name) (lowerStr (trimStr "team"))) :=
  ⟨by decide,
    (filteredEvents_search_characterization
      [{ id := "1", name := "Team Meeting", date := "2025-01-01" },
        { id := "2", name := "Launch Party", date := "2024-01-01" }] "team").2.1 (by decide)⟩

/-- C10: the search text is trimmed before matching — filtering with `q`
equals filtering with `trim(q)`, and a whitespace-only search text
yields the full sorted list. -/
theorem filteredEvents_trims_search (evs : List EventItem) (q : String) :
    filteredEvents evs q = filteredEvents evs (trimStr q) ∧
      ((∀ c ∈ q.data, c.isWhitespace = true) → filteredEvents evs q = sortByDate evs) := by
  constructor
  · show (if lowerStr (trimStr q) = "" then sortByDate evs
      else (sortByDate evs).filter
        (fun e => includesStr (lowerStr e.name) (lowerStr (trimStr q))))
      = (if lowerStr (trimStr (trimStr q)) = "" then sortByDate evs
        else (sortByDate evs).filter
          (fun e => includesStr (lowerStr e.name) (lowerStr (trimStr (trimStr q)))))
    rw [show trimStr (trimStr q) = trimStr q from String.ext (trimList_idem q.data)]
  · intro h
    show (if lowerStr (trimStr q) = "" then sortByDate evs
      else (sortByDate evs).filter
        (fun e => includesStr (lowerStr e.name) (lowerStr (trimStr q)))) = sortByDate evs
    rw [trimStr_eq_empty_of_whitespace q h]
    exact if_pos rfl

theorem filteredEvents_trims_search_witness :
    (∀ c ∈ ("   " : String).data, c.isWhitespace = true) ∧
      filteredEvents [sampleEvent] "   " = sortByDate [sampleEvent] :=
  ⟨by decide, (filteredEvents_trims_search [sampleEvent] "   ").2 (by decide)⟩

/-- C5: a date input passes validation iff it matches the strict
`yyyy-mm-dd` pattern and is a real calendar date; a name input passes
iff it is non-empty after trimming and at most 200 characters;
"2025-13-40" (pattern-matching but not a calendar date) and the
whitespace-only name are rejected, and any violation leaves the store
untouched (`addEvent` is not invoked). -/
theorem form_validation_rules (st : EventsState) (freshId name date v : String) :
    (dateFieldValid v = true ↔
        matchesISOPattern v = true ∧
          isRealCalendarDate (parseISO v).1 (parseISO v).2.1 (parseISO v).2.2 = true) ∧
      (nameFieldValid v = true ↔ trimStr v ≠ "" ∧ v.length ≤ 200) ∧
      (matchesISOPattern "2025-13-40" = true ∧ isValidISODate "2025-13-40" = false) ∧
      nameFieldValid "   " = false ∧
      (¬(nameFieldValid name = true ∧ dateFieldValid date = true) →
        submitForm st freshId name date = st) := by
  refine ⟨?_, ?_, by decide, by decide, ?_⟩
  · constructor
    · intro h
      rw [dateFieldValid, Bool.and_eq_true] at h
      by_cases hm : matchesISOPattern v = true
      · refine ⟨hm, ?_⟩
        have h2 := h.2
        rwa [isValidISODate, if_pos hm] at h2
      · exfalso
        have h2 := h.2
        rw [isValidISODate, if_neg hm] at h2
        exact Bool.false_ne_true h2
    · rintro ⟨hm, hr⟩
      rw [dateFieldValid, Bool.and_eq_true]
      refine ⟨?_, ?_⟩
      · have hv : v ≠ "" := by
          intro he
          rw [he] at hm
          exact absurd hm (by decide)
        simpa using hv
      · rw [isValidISODate, if_pos hm]
        exact hr
  · simp only [nameFieldValid, Bool.and_eq_true, decide_eq_true_eq, ne_eq]
    constructor
    · rintro ⟨⟨_, h2⟩, h3⟩
      exact ⟨h2, h3⟩
    · rintro ⟨h2, h3⟩
      refine ⟨⟨?_, h2⟩, h3⟩
      intro he
      exact h2 (by rw [he]; rfl)
  · intro h
    rw [submitForm, if_neg (by simpa [Bool.and_eq_true] using h)]

theorem form_validation_rules_witness :
    ¬(nameFieldValid "   " = true ∧ dateFieldValid "2025-13-40" = true) ∧
      submitForm sampleState "id9" "   " "2025-13-40" = sampleState :=
  ⟨by decide,
    (form_validation_rules sampleState "id9" "   " "2025-13-40" "x").2.2.2.2 (by decide)⟩

/-- The invariant maintained by the store: every stored id was produced
by the id supply at an index below the generation counter, and the
stored ids are pairwise distinct. -/
def IdsOk (gen : Nat → String) (p : EventsState × Nat) : Prop :=
  (∀ e ∈ p.1.events, ∃ i, i < p.2 ∧ e.id = gen i) ∧ (p.1.events.map EventItem.id).Nodup

theorem runOp_preserves_IdsOk (gen : Nat → String) (hgen : Function.Injective gen)
    (p : EventsState × Nat) (op : Op) (h : IdsOk gen p) : IdsOk gen (runOp gen p op) := by
  obtain ⟨hsrc, hnd⟩ := h
  cases op with
  | add name date =>
    constructor
    · intro e he
      rcases List.mem_append.mp he with h1 | h1
      · obtain ⟨i, hi, hei⟩ := hsrc e h1
        exact ⟨i, Nat.lt_succ_of_lt hi, hei⟩
      · refine ⟨p.2, Nat.lt_succ_self _, ?_⟩
        rw [List.mem_singleton.mp h1]
    · show ((p.1.events ++ [_]).map EventItem.id).Nodup
      rw [List.map_append]
      rw [List.nodup_append]
      refine ⟨hnd, List.nodup_singleton _, ?_⟩
      intro x hx hx2
      rw [List.map_singleton, List.mem_singleton] at hx2
      obtain ⟨e, he, heid⟩ := List.mem_map.mp hx
      obtain ⟨i, hi, hei⟩ := hsrc e he
      have : i = p.2 := hgen (by rw [← hei, heid, hx2])
      omega
  | delete id =>
    constructor
    · intro e he
      exact hsrc e (List.mem_of_mem_filter he)
    · have hsub : List.Sublist ((p.1.events.filter (fun e => e.id ≠ id)).map EventItem.id)
          (p.1.events.map EventItem.id) :=
        (List.filter_sublist p.1.events).map EventItem.id
      exact hnd.sublist hsub
  | search q =>
    exact ⟨hsrc, hnd⟩

theorem foldl_preserves_IdsOk (gen : Nat → String) (hgen : Function.Injective gen) :
    ∀ (ops : List Op) (p : EventsState × Nat),
      IdsOk gen p → IdsOk gen (ops.foldl (runOp gen) p)
  | [], _, h => h
  | op :: ops, p, h =>
    foldl_preserves_IdsOk gen hgen ops _ (runOp_preserves_IdsOk gen hgen p op h)

/-- C6: in every state reachable from the initial empty collection by
any sequence of store operations, the ids of the stored events are
pairwise distinct, provided the id supply (modelling `generateId`, which
the source intends to produce a fresh unique id per call) never repeats
a value. -/
theorem reachable_ids_nodup (gen : Nat → String) (hgen : Function.Injective gen)
    (ops : List Op) : ((runOps gen ops).1.events.map EventItem.id).Nodup :=
  (foldl_preserves_IdsOk gen hgen ops (initialState, 0)
    ⟨fun e he => absurd he (List.not_mem_nil e), List.nodup_nil⟩).2

theorem reachable_ids_nodup_witness :
    (((runOps (fun n => String.mk (List.replicate n 'a'))
        [Op.add "Team Meeting" "2025-01-01", Op.add "Launch Party" "2024-01-01",
          Op.delete "", Op.search "team"]).1.events.map EventItem.id)).Nodup :=
  reachable_ids_nodup (fun n => String.mk (List.replicate n 'a'))
    (fun a b h => by simpa using congrArg (fun s => s.data.length) h) _

end EventManager
